import Mathlib

/-!
Shallow embedding of the `blockchain-pow-julia` repository:
the escape-time proof-of-work puzzle (`src/proof_of_work.rs`),
the event-sourced ledger (`src/ledger.rs`) and the block graph with its
fork-choice rule (`src/blockchain.rs`), together with theorems settling the
frozen claims about them.

Conventions of the embedding:
- `f64` complex arithmetic is modelled with exact rational arithmetic (`ℚ`);
  the unsigned fixed-width amount type is modelled as `Nat` together with an
  explicit capacity `cap` (checked addition fails when the sum exceeds `cap`).
- Rust functions that can reach a `panic` / `expect` / `assert` /
  `unreachable` branch return `Option`, with `none` marking the panicking
  branch.
- `HashMap` is modelled as an association list with replace-on-insert
  semantics; the places where the Rust code sorts (`root_blocks`,
  `leaf_blocks`) erase the iteration-order nondeterminism of the map, and the
  remaining uses (lookup, balance sums) are order-insensitive.
-/

namespace PowJulia

/-! ### Proof of work (`src/proof_of_work.rs`) -/

/-- Complex numbers as used by `check_work`, with exact coordinates. -/
structure Cplx where
  re : ℚ
  im : ℚ
deriving DecidableEq

/-- Complex multiplication, as `num::Complex::mul`. -/
def Cplx.mul (x y : Cplx) : Cplx :=
  ⟨x.re * y.re - x.im * y.im, x.re * y.im + x.im * y.re⟩

/-- Complex addition, as `num::Complex::add`. -/
def Cplx.add (x y : Cplx) : Cplx :=
  ⟨x.re + y.re, x.im + y.im⟩

/-- `z.powu(2)` computes `z * z`. -/
def Cplx.powu2 (z : Cplx) : Cplx := z.mul z

/-- `iterate_julia(c, z) = z.powu(2) + c`. -/
def iterate_julia (c z : Cplx) : Cplx := (z.powu2).add c

/-- The k-th iterate of `z ↦ z² + c` starting from `z` (`iterN c z 0 = z`). -/
def iterN (c z : Cplx) : Nat → Cplx
  | 0 => z
  | n + 1 => iterate_julia c (iterN c z n)

inductive DoWorkError where
  | LeftSetTooEarly
  | LeftSetTooLateOrNotAtAll
deriving DecidableEq

/-- The loop body of `check_work`: `current` is the current iterate and `n`
the number of loop iterations still to run (`n = target_iterations + 1 - i`
at loop index `i`); `n = 0` means the loop ended without the bound being
violated. `iteration == target_iterations` in the source corresponds to
`n = 1` here. -/
def check_work_go (c : Cplx) (re_min re_max : ℚ) (candidate : Cplx) :
    Cplx → Nat → Except DoWorkError Cplx
  | _, 0 => .error .LeftSetTooLateOrNotAtAll
  | current, n + 1 =>
    let next := iterate_julia c current
    if next.re < re_min ∨ re_max < next.re then
      if n = 0 then .ok candidate else .error .LeftSetTooEarly
    else
      check_work_go c re_min re_max candidate next n

/-- `check_work` from `src/proof_of_work.rs`: run the loop
`for iteration in 0..=target_iterations`. -/
def check_work (c : Cplx) (re_min re_max : ℚ) (candidate : Cplx)
    (target_iterations : Nat) : Except DoWorkError Cplx :=
  check_work_go c re_min re_max candidate candidate (target_iterations + 1)

/-- The real part of `z` left the corridor: the exit test of the loop. -/
def outRe (re_min re_max : ℚ) (z : Cplx) : Prop :=
  z.re < re_min ∨ re_max < z.re

instance (re_min re_max : ℚ) (z : Cplx) : Decidable (outRe re_min re_max z) :=
  inferInstanceAs (Decidable (_ ∨ _))

/-- The real part of `z` is inside the closed interval `[re_min, re_max]`. -/
def inSet (re_min re_max : ℚ) (z : Cplx) : Prop :=
  re_min ≤ z.re ∧ z.re ≤ re_max

instance (re_min re_max : ℚ) (z : Cplx) : Decidable (inSet re_min re_max z) :=
  inferInstanceAs (Decidable (_ ∧ _))

/-! ### Ledger (`src/ledger.rs`) -/

/-- Checked addition of the fixed-width unsigned amount type: the maximum
representable value is `cap`. -/
def checkedAdd (cap a b : Nat) : Option Nat :=
  if a + b ≤ cap then some (a + b) else none

/-- Checked subtraction of an unsigned type: fails when it would go below
zero. -/
def checkedSub (a b : Nat) : Option Nat :=
  if b ≤ a then some (a - b) else none

/-- `UserSummary` with a `Nat` balance. -/
structure UserSummary (PublicKey : Type) where
  balance : Nat
  public_key : PublicKey
deriving DecidableEq

/-- `LedgerEvent` from `src/ledger.rs`. -/
inductive LedgerEvent (UserId PublicKey Signature : Type) where
  | NewUser (identifier : UserId) (public_key : PublicKey)
  | Mint (beneficiary : UserId) (amount : Nat)
  | Transfer (benefactor beneficiary : UserId) (amount : Nat)
      (benefactor_signature : Signature)
deriving DecidableEq

/-- `Ledger`: the append-only list of accepted events. -/
structure Ledger (UserId PublicKey Signature : Type) where
  events : List (LedgerEvent UserId PublicKey Signature)
deriving DecidableEq

/-- `AcceptEventError` from `src/ledger.rs` (note: the source has no
self-transfer variant). -/
inductive AcceptEventError where
  | UserIdTaken
  | WouldOverdraw
  | NoSuchAccount
  | WouldOverflow
  | InvalidSignature
deriving DecidableEq

/-- `TransferVerifierArgs` from `src/ledger.rs`. -/
structure TransferVerifierArgs (BlockId UserId PublicKey Signature : Type) where
  block_id : BlockId
  event_index : Nat
  benefactor : UserId
  beneficiary : UserId
  amount : Nat
  benefactor_public_key : PublicKey
  benefactor_signature : Signature

variable {UserId PublicKey Signature BlockId : Type}

/-- Association-list lookup, modelling `HashMap::get`. -/
def alookup [DecidableEq κ] : List (κ × α) → κ → Option α
  | [], _ => none
  | (k, v) :: t, k0 => if k0 = k then some v else alookup t k0

/-- Association-list insert, modelling `HashMap::insert` (replaces the value
under an existing key, otherwise appends). -/
def ainsert [DecidableEq κ] : List (κ × α) → κ → α → List (κ × α)
  | [], k0, v0 => [(k0, v0)]
  | (k, v) :: t, k0, v0 =>
    if k0 = k then (k0, v0) :: t else (k, v) :: ainsert t k0 v0

/-- One step of the fold inside `Ledger::users`; `none` is the panicking
branch (`assert` on duplicate users, the `expect`s on missing accounts,
overflowing mints and overdrawing or overflowing transfers). -/
def applyEvent [DecidableEq UserId] (cap : Nat)
    (users : List (UserId × UserSummary PublicKey)) :
    LedgerEvent UserId PublicKey Signature →
      Option (List (UserId × UserSummary PublicKey))
  | .NewUser identifier public_key =>
    match alookup users identifier with
    | some _ => none
    | none => some (ainsert users identifier ⟨0, public_key⟩)
  | .Mint beneficiary amount =>
    match alookup users beneficiary with
    | none => none
    | some s =>
      match checkedAdd cap s.balance amount with
      | none => none
      | some b => some (ainsert users beneficiary ⟨b, s.public_key⟩)
  | .Transfer benefactor beneficiary amount _ =>
    match alookup users benefactor with
    | none => none
    | some s1 =>
      match checkedSub s1.balance amount with
      | none => none
      | some b1 =>
        let users1 := ainsert users benefactor ⟨b1, s1.public_key⟩
        match alookup users1 beneficiary with
        | none => none
        | some s2 =>
          match checkedAdd cap s2.balance amount with
          | none => none
          | some b2 => some (ainsert users1 beneficiary ⟨b2, s2.public_key⟩)

/-- `Ledger::users`: fold the event history into the balance map; `none` is
a panic. -/
def users [DecidableEq UserId] (cap : Nat)
    (events : List (LedgerEvent UserId PublicKey Signature)) :
    Option (List (UserId × UserSummary PublicKey)) :=
  events.foldl (fun acc e => acc.bind fun m => applyEvent cap m e) (some [])

/-- `Ledger::could_receive`: fail with `NoSuchAccount` or `WouldOverflow` as
appropriate. -/
def could_receive [DecidableEq UserId] (cap : Nat)
    (l : Ledger UserId PublicKey Signature) (beneficiary : UserId)
    (amount : Nat) :
    Option (Except AcceptEventError (UserSummary PublicKey)) :=
  (users cap l.events).map fun m =>
    match alookup m beneficiary with
    | some s =>
      match checkedAdd cap s.balance amount with
      | some _ => .ok s
      | none => .error .WouldOverflow
    | none => .error .NoSuchAccount

/-- `Ledger::could_send`: fail with `NoSuchAccount` or `WouldOverdraw` as
appropriate. -/
def could_send [DecidableEq UserId] (cap : Nat)
    (l : Ledger UserId PublicKey Signature) (benefactor : UserId)
    (amount : Nat) :
    Option (Except AcceptEventError (UserSummary PublicKey)) :=
  (users cap l.events).map fun m =>
    match alookup m benefactor with
    | some s =>
      match checkedSub s.balance amount with
      | some _ => .ok s
      | none => .error .WouldOverdraw
    | none => .error .NoSuchAccount

/-- `Ledger::with_event`: validate one event against the current ledger and,
on success, return the ledger with the event appended.  The transfer
verifier returns `true` for `Ok(())`.  The outer `Option` is `none` when the
internal `users()` call would panic. -/
def with_event [DecidableEq UserId] (cap : Nat)
    (l : Ledger UserId PublicKey Signature)
    (event : LedgerEvent UserId PublicKey Signature) (block_id : BlockId)
    (event_index : Nat)
    (transfer_verifier :
      TransferVerifierArgs BlockId UserId PublicKey Signature → Bool) :
    Option (Except AcceptEventError (Ledger UserId PublicKey Signature)) :=
  match event with
  | .NewUser identifier _ =>
    (users cap l.events).map
      fun m =>
        match alookup m identifier with
        | some _ => .error .UserIdTaken
        | none => .ok ⟨l.events ++ [event]⟩
  | .Mint beneficiary amount =>
    (could_receive cap l beneficiary amount).map fun r =>
      match r with
      | .error e => .error e
      | .ok _ => .ok ⟨l.events ++ [event]⟩
  | .Transfer benefactor beneficiary amount benefactor_signature =>
    (could_receive cap l beneficiary amount).bind fun r1 =>
      match r1 with
      | .error e => some (.error e)
      | .ok _ =>
        (could_send cap l benefactor amount).map fun r2 =>
          match r2 with
          | .error e => .error e
          | .ok s =>
            if transfer_verifier
                ⟨block_id, event_index, benefactor, beneficiary, amount,
                  s.public_key, benefactor_signature⟩ then
              .ok ⟨l.events ++ [event]⟩
            else
              .error .InvalidSignature

/-- Ledgers reachable from the empty ledger by events each accepted by
`with_event` (for a fixed block-id type `B`). -/
inductive LedgerReach [DecidableEq UserId] (B : Type) (cap : Nat) :
    Ledger UserId PublicKey Signature → Prop where
  | nil : LedgerReach B cap ⟨[]⟩
  | step {l l' : Ledger UserId PublicKey Signature}
      {e : LedgerEvent UserId PublicKey Signature} {bid : B} {idx : Nat}
      {v : TransferVerifierArgs B UserId PublicKey Signature → Bool} :
      LedgerReach B cap l →
      with_event cap l e bid idx v = some (.ok l') →
      LedgerReach B cap l'

/-- Sum of all balances in a balance map. -/
def sumBalances (m : List (UserId × UserSummary PublicKey)) : Nat :=
  (m.map fun p => p.2.balance).sum

/-- The amount minted by an event (`0` for non-Mint events). -/
def mintAmount : LedgerEvent UserId PublicKey Signature → Nat
  | .NewUser _ _ => 0
  | .Mint _ amount => amount
  | .Transfer _ _ _ _ => 0

/-- Total amount minted by an event history. -/
def mintTotal (events : List (LedgerEvent UserId PublicKey Signature)) : Nat :=
  (events.map mintAmount).sum

/-! ### Block graph (`src/blockchain.rs`) -/

instance {ε α : Type} [DecidableEq ε] [DecidableEq α] :
    DecidableEq (Except ε α) := fun x y =>
  match x, y with
  | .ok a, .ok b =>
    if h : a = b then .isTrue (by rw [h])
    else .isFalse (by intro hc; injection hc; contradiction)
  | .ok _, .error _ => .isFalse (by intro hc; injection hc)
  | .error _, .ok _ => .isFalse (by intro hc; injection hc)
  | .error a, .error b =>
    if h : a = b then .isTrue (by rw [h])
    else .isFalse (by intro hc; injection hc; contradiction)

/-- `Block` from `src/blockchain.rs`; `ε` is the type of ledger events it
carries (the block graph only compares them for equality). -/
structure Block (β ε : Type) where
  parent : Option β
  id : β
  events : List ε
deriving DecidableEq

/-- `petgraph::graphmap::DiGraphMap` restricted to what the source uses: a
node set and a directed edge set, both kept without duplicates. -/
structure DiGraph (β : Type) where
  nodes : List β
  edges : List (β × β)
deriving DecidableEq

/-- Add an element to a duplicate-free list if it is not already there. -/
def insertNew [DecidableEq α] (xs : List α) (x : α) : List α :=
  if x ∈ xs then xs else xs ++ [x]

/-- `DiGraphMap::add_node`. -/
def DiGraph.add_node [DecidableEq β] (g : DiGraph β) (n : β) : DiGraph β :=
  ⟨insertNew g.nodes n, g.edges⟩

/-- `DiGraphMap::add_edge` (also inserting both endpoints as nodes). -/
def DiGraph.add_edge [DecidableEq β] (g : DiGraph β) (a b : β) : DiGraph β :=
  ⟨insertNew (insertNew g.nodes a) b, insertNew g.edges (a, b)⟩

/-- Outgoing neighbors of `a` (`DiGraphMap::neighbors`). -/
def DiGraph.successors [DecidableEq β] (g : DiGraph β) (a : β) : List β :=
  (g.edges.filter fun e => decide (e.1 = a)).map fun e => e.2

/-- Depth-first enumeration of the simple paths from `a` to `target`, as
`petgraph::algo::all_simple_paths` with no intermediate-node bounds: each
returned list is the path with its starting node removed.  `visited` holds
the nodes already on the current path (the start included), and `fuel`
bounds the recursion depth; with `fuel = node count` every simple path is
found, since the visited nodes stay pairwise distinct. -/
def simplePathsAux [DecidableEq β] (g : DiGraph β) (target : β) :
    Nat → List β → β → List (List β)
  | 0, _, _ => []
  | fuel + 1, visited, a =>
    (g.successors a).flatMap fun s =>
      if s = target then [[s]]
      else if s ∈ visited then []
      else (simplePathsAux g target fuel (s :: visited) s).map fun p => s :: p

/-- All simple paths from `a` to `b`, each including both endpoints. -/
def all_simple_paths [DecidableEq β] (g : DiGraph β) (a b : β) :
    List (List β) :=
  (simplePathsAux g b g.nodes.length [a] a).map fun p => a :: p

inductive AddBlockError where
  | WouldClobber
deriving DecidableEq

/-- `BlockGraph` from `src/blockchain.rs`. -/
structure BlockGraph (β ε : Type) where
  block_ids_to_blocks : List (β × Block β ε)
  block_id_graph : DiGraph β
  winning_chain : List (Block β ε)
deriving DecidableEq

/-- `BlockGraph::default`. -/
def BlockGraph.empty (β ε : Type) : BlockGraph β ε := ⟨[], ⟨[], []⟩, []⟩

variable {β ε : Type}

/-- `BlockGraph::root_blocks`: ids of the parentless blocks, sorted. -/
def root_blocks [LinearOrder β] (g : BlockGraph β ε) : List β :=
  (g.block_ids_to_blocks.filterMap fun p =>
      match p.2.parent with
      | some _ => none
      | none => some p.2.id).insertionSort (· ≤ ·)

/-- `BlockGraph::leaf_blocks`: keys with no outgoing neighbors, sorted. -/
def leaf_blocks [LinearOrder β] (g : BlockGraph β ε) : List β :=
  ((g.block_ids_to_blocks.map fun p => p.1).filter fun k =>
      decide ((g.block_id_graph.successors k).length = 0)).insertionSort
    (· ≤ ·)

/-- One iteration of the inner loop of `calculate_winning_chain`: `none` is
the `unreachable` branch taken when `all_simple_paths` yields two or more
paths. -/
def wcStep [DecidableEq β] (g : BlockGraph β ε) (root : β)
    (acc : Option (List β)) (leaf : β) : Option (List β) :=
  acc.bind fun winner =>
    if root = leaf ∧ winner.length = 0 then some (winner ++ [root])
    else
      match all_simple_paths g.block_id_graph root leaf with
      | [] => some winner
      | [candidate] =>
        some (if winner.length < candidate.length then candidate else winner)
      | _ :: _ :: _ => none

/-- Map the ids of the winning path back to blocks; `none` is the
`expect("BlockGraph.blocks and BlockGraph.graph are out of sync")` branch. -/
def mapToBlocks [DecidableEq β] (g : BlockGraph β ε) :
    List β → Option (List (Block β ε))
  | [] => some []
  | x :: t =>
    match alookup g.block_ids_to_blocks x with
    | none => none
    | some b => (mapToBlocks g t).map fun r => b :: r

/-- `BlockGraph::calculate_winning_chain`. -/
def calculate_winning_chain [LinearOrder β] (g : BlockGraph β ε) :
    Option (List (Block β ε)) :=
  ((root_blocks g).foldl
      (fun acc root => (leaf_blocks g).foldl (wcStep g root) acc)
      (some [])).bind
    fun winner => mapToBlocks g winner

/-- `BlockGraph::add_block`; the final state is returned next to the
`Result`, and `none` marks a panic inside `calculate_winning_chain`. -/
def add_block [LinearOrder β] [DecidableEq ε] (g : BlockGraph β ε)
    (block : Block β ε) :
    Option (BlockGraph β ε × Except AddBlockError Unit) :=
  match alookup g.block_ids_to_blocks block.id with
  | some already =>
    if already = block then some (g, .ok ())
    else some (g, .error .WouldClobber)
  | none =>
    let blocks := g.block_ids_to_blocks ++ [(block.id, block)]
    match block.parent, g.winning_chain.getLast? with
    | some parent, some tail =>
      if parent = tail.id then
        some (⟨blocks, g.block_id_graph.add_edge parent block.id,
          g.winning_chain ++ [block]⟩, .ok ())
      else
        let g1 : BlockGraph β ε :=
          ⟨blocks, g.block_id_graph.add_edge parent block.id, g.winning_chain⟩
        (calculate_winning_chain g1).map fun w =>
          (⟨g1.block_ids_to_blocks, g1.block_id_graph, w⟩, .ok ())
    | some parent, none =>
      let g1 : BlockGraph β ε :=
        ⟨blocks, g.block_id_graph.add_edge parent block.id, g.winning_chain⟩
      (calculate_winning_chain g1).map fun w =>
        (⟨g1.block_ids_to_blocks, g1.block_id_graph, w⟩, .ok ())
    | none, _ =>
      let g1 : BlockGraph β ε :=
        ⟨blocks, g.block_id_graph.add_node block.id, g.winning_chain⟩
      (calculate_winning_chain g1).map fun w =>
        (⟨g1.block_ids_to_blocks, g1.block_id_graph, w⟩, .ok ())

/-- Block graphs reachable from the empty graph by successful `add_block`
calls. -/
inductive Reach [LinearOrder β] [DecidableEq ε] : BlockGraph β ε → Prop where
  | empty : Reach (BlockGraph.empty β ε)
  | step {g g' : BlockGraph β ε} {b : Block β ε} :
      Reach g → add_block g b = some (g', .ok ()) → Reach g'

/-- Fold a list of blocks through successful `add_block` calls, stopping
with `none` on any error or panic. -/
def addSeq [LinearOrder β] [DecidableEq ε] :
    BlockGraph β ε → List (Block β ε) → Option (BlockGraph β ε)
  | g, [] => some g
  | g, b :: t =>
    match add_block g b with
    | some (g', .ok ()) => addSeq g' t
    | _ => none

/-- Walks in an edge list, recorded as the list of nodes after the start:
`WalkR edges a p b` holds when `p = [x1, …, xn]`, `xn = b` and
`(a, x1), (x1, x2), …` are all edges. -/
inductive WalkR (edges : List (β × β)) : β → List β → β → Prop where
  | single {a b : β} : (a, b) ∈ edges → WalkR edges a [b] b
  | snoc {a x b : β} {p : List β} :
      WalkR edges a p x → (x, b) ∈ edges → WalkR edges a (p ++ [b]) b

/-- Every node has at most one incoming edge. -/
def TargetsUnique (edges : List (β × β)) : Prop :=
  ∀ a b c : β, (a, c) ∈ edges → (b, c) ∈ edges → a = b

/-- The structural invariant of reachable block graphs. -/
structure GraphInv (g : BlockGraph β ε) [DecidableEq β] : Prop where
  id_eq : ∀ p ∈ g.block_ids_to_blocks, (p.2).id = p.1
  edge_src : ∀ e ∈ g.block_id_graph.edges,
    ∃ blk, alookup g.block_ids_to_blocks e.2 = some blk ∧
      blk.parent = some e.1
  edges_nodup : g.block_id_graph.edges.Nodup

/-! ## Theorems -/

/-! ### Proof-of-work lemmas -/

theorem outRe_iff_not_inSet (rm rM : ℚ) (z : Cplx) :
    outRe rm rM z ↔ ¬ inSet rm rM z := by
  rw [outRe, inSet, not_and_or, not_le, not_le]

theorem iterN_shift (c z : Cplx) (n : Nat) :
    iterN c (iterate_julia c z) n = iterN c z (n + 1) := by
  induction n with
  | zero => rfl
  | succ n ih => simp [iterN, ih]

theorem check_work_go_ok_iff (c : Cplx) (rm rM : ℚ) (cand : Cplx) :
    ∀ (n : Nat) (z : Cplx),
      check_work_go c rm rM cand z n = .ok cand ↔
        0 < n ∧ (∀ j, 1 ≤ j → j < n → ¬ outRe rm rM (iterN c z j)) ∧
          outRe rm rM (iterN c z n) := by
  intro n
  induction n with
  | zero => intro z; simp [check_work_go]
  | succ m ih =>
    intro z
    simp only [check_work_go]
    split_ifs with hout hm
    · subst hm
      constructor
      · intro _
        refine ⟨Nat.one_pos, ?_, hout⟩
        intro j h1 h2
        exact absurd h2 (by omega)
      · intro _; rfl
    · constructor
      · intro h; exact absurd h (by simp)
      · rintro ⟨-, h2, -⟩
        exact absurd hout (h2 1 le_rfl (by omega))
    · rw [ih (iterate_julia c z)]
      simp only [iterN_shift c z]
      constructor
      · rintro ⟨h1, h2, h3⟩
        refine ⟨Nat.succ_pos m, ?_, h3⟩
        intro j hj1 hj2
        rcases Nat.lt_or_ge j 2 with hj | hj
        · have hj' : j = 1 := by omega
          subst hj'
          exact hout
        · have hje : j - 1 + 1 = j := by omega
          rw [← hje]
          exact h2 (j - 1) (by omega) (by omega)
      · rintro ⟨-, h2, h3⟩
        have hm : 0 < m := by
          by_contra hm0
          have hm0' : m = 0 := by omega
          subst hm0'
          exact hout h3
        refine ⟨hm, ?_, h3⟩
        intro j hj1 hj2
        exact h2 (j + 1) (by omega) (by omega)

theorem check_work_go_tooEarly_iff (c : Cplx) (rm rM : ℚ) (cand : Cplx) :
    ∀ (n : Nat) (z : Cplx),
      check_work_go c rm rM cand z n = .error .LeftSetTooEarly ↔
        ∃ j, 1 ≤ j ∧ j < n ∧ outRe rm rM (iterN c z j) := by
  intro n
  induction n with
  | zero => intro z; simp [check_work_go]
  | succ m ih =>
    intro z
    simp only [check_work_go]
    split_ifs with hout hm
    · subst hm
      constructor
      · intro h; exact absurd h (by simp)
      · rintro ⟨j, hj1, hj2, -⟩
        exact absurd hj2 (by omega)
    · constructor
      · intro _; exact ⟨1, le_rfl, by omega, hout⟩
      · intro _; rfl
    · rw [ih (iterate_julia c z)]
      simp only [iterN_shift c z]
      constructor
      · rintro ⟨j, hj1, hj2, hj3⟩
        exact ⟨j + 1, by omega, by omega, hj3⟩
      · rintro ⟨j, hj1, hj2, hj3⟩
        match j, hj1 with
        | 1, _ => exact absurd hj3 hout
        | j + 2, _ => exact ⟨j + 1, by omega, by omega, hj3⟩

theorem check_work_go_tooLate_iff (c : Cplx) (rm rM : ℚ) (cand : Cplx) :
    ∀ (n : Nat) (z : Cplx),
      check_work_go c rm rM cand z n = .error .LeftSetTooLateOrNotAtAll ↔
        ∀ j, 1 ≤ j → j ≤ n → ¬ outRe rm rM (iterN c z j) := by
  intro n
  induction n with
  | zero =>
    intro z
    constructor
    · intro _ j hj1 hj2
      exact absurd hj2 (by omega)
    · intro _; rfl
  | succ m ih =>
    intro z
    simp only [check_work_go]
    split_ifs with hout hm
    · subst hm
      constructor
      · intro h; exact absurd h (by simp)
      · intro h; exact absurd hout (h 1 le_rfl le_rfl)
    · constructor
      · intro h; exact absurd h (by simp)
      · intro h; exact absurd hout (h 1 le_rfl (by omega))
    · rw [ih (iterate_julia c z)]
      simp only [iterN_shift c z]
      constructor
      · intro h j hj1 hj2
        match j, hj1 with
        | 1, _ => exact hout
        | j + 2, _ => exact h (j + 1) (by omega) (by omega)
      · intro h j hj1 hj2
        exact h (j + 1) (by omega) (by omega)

/-- C2 (theorem): `check_work` succeeds with the unmodified candidate iff
the iterates `1..=t` stay inside `[re_min, re_max]` and the `(t+1)`-th
iterate leaves it; it fails with `LeftSetTooEarly` iff the first iterate
leaving the interval is at some step `k ≤ t`; and it fails with
`LeftSetTooLateOrNotAtAll` iff the first `t+1` iterates all stay inside. -/
theorem check_work_characterization (c : Cplx) (re_min re_max : ℚ)
    (candidate : Cplx) (t : Nat) :
    (check_work c re_min re_max candidate t = .ok candidate ↔
      (∀ k, 1 ≤ k → k ≤ t → inSet re_min re_max (iterN c candidate k)) ∧
        ¬ inSet re_min re_max (iterN c candidate (t + 1))) ∧
    (check_work c re_min re_max candidate t = .error .LeftSetTooEarly ↔
      ∃ k, 1 ≤ k ∧ k ≤ t ∧ ¬ inSet re_min re_max (iterN c candidate k) ∧
        ∀ j, 1 ≤ j → j < k → inSet re_min re_max (iterN c candidate j)) ∧
    (check_work c re_min re_max candidate t =
        .error .LeftSetTooLateOrNotAtAll ↔
      ∀ k, 1 ≤ k → k ≤ t + 1 → inSet re_min re_max (iterN c candidate k)) := by
  refine ⟨?_, ?_, ?_⟩
  · rw [check_work, check_work_go_ok_iff]
    simp only [outRe_iff_not_inSet, not_not]
    constructor
    · rintro ⟨-, h2, h3⟩
      exact ⟨fun k hk1 hk2 => h2 k hk1 (by omega), h3⟩
    · rintro ⟨h2, h3⟩
      exact ⟨by omega, fun j hj1 hj2 => h2 j hj1 (by omega), h3⟩
  · rw [check_work, check_work_go_tooEarly_iff]
    simp only [outRe_iff_not_inSet]
    constructor
    · rintro ⟨j, hj1, hj2, hj3⟩
      have hex : ∃ k, 1 ≤ k ∧ k ≤ t ∧
          ¬ inSet re_min re_max (iterN c candidate k) := ⟨j, hj1, by omega, hj3⟩
      refine ⟨Nat.find hex, (Nat.find_spec hex).1, (Nat.find_spec hex).2.1,
        (Nat.find_spec hex).2.2, ?_⟩
      intro i hi1 hi2
      have hni := Nat.find_min hex hi2
      by_contra hcon
      exact hni ⟨hi1, by
        have := (Nat.find_spec hex).2.1
        omega, hcon⟩
    · rintro ⟨k, hk1, hk2, hk3, -⟩
      exact ⟨k, hk1, by omega, hk3⟩
  · rw [check_work, check_work_go_tooLate_iff]
    simp only [outRe_iff_not_inSet, not_not]

/-- C8 (theorem): if `check_work` succeeds at `t`, it fails both at `t - 1`
(when `t > 0`, i.e. `t = s + 1`) and at `t + 1`. -/
theorem check_work_windows_exclusive (c : Cplx) (re_min re_max : ℚ)
    (candidate : Cplx) (t : Nat)
    (h : check_work c re_min re_max candidate t = .ok candidate) :
    (∀ s, t = s + 1 →
      ∃ e, check_work c re_min re_max candidate s = .error e) ∧
    ∃ e, check_work c re_min re_max candidate (t + 1) = .error e := by
  rw [check_work, check_work_go_ok_iff] at h
  obtain ⟨-, hin, hout⟩ := h
  constructor
  · rintro s rfl
    refine ⟨.LeftSetTooLateOrNotAtAll, ?_⟩
    rw [check_work, check_work_go_tooLate_iff]
    intro j hj1 hj2
    exact hin j hj1 (by omega)
  · refine ⟨.LeftSetTooEarly, ?_⟩
    rw [check_work, check_work_go_tooEarly_iff]
    exact ⟨t + 1, by omega, by omega, hout⟩

/-- C8 (witness): a concrete success at `t = 1` whose neighbours fail. -/
theorem check_work_windows_exclusive_witness :
    (∃ e, check_work ⟨0, 0⟩ (-10) 10 ⟨2, 0⟩ 0 = .error e) ∧
    ∃ e, check_work ⟨0, 0⟩ (-10) 10 ⟨2, 0⟩ 2 = .error e := by
  have hok : check_work ⟨0, 0⟩ (-10) 10 ⟨2, 0⟩ 1 = .ok ⟨2, 0⟩ := by
    rw [check_work, check_work_go_ok_iff]
    refine ⟨by omega, ?_, ?_⟩
    · intro j hj1 hj2
      have hj : j = 1 := by omega
      subst hj
      norm_num [iterN, iterate_julia, Cplx.powu2, Cplx.mul, Cplx.add, outRe]
    · norm_num [iterN, iterate_julia, Cplx.powu2, Cplx.mul, Cplx.add, outRe]
  have h := check_work_windows_exclusive ⟨0, 0⟩ (-10) 10 ⟨2, 0⟩ 1 hok
  exact ⟨h.1 0 rfl, h.2⟩

/-! ### Association-list lemmas -/

theorem alookup_ainsert_self [DecidableEq κ] (m : List (κ × α)) (k : κ)
    (v : α) : alookup (ainsert m k v) k = some v := by
  induction m with
  | nil => simp [ainsert, alookup]
  | cons p t ih =>
    obtain ⟨k0, v0⟩ := p
    by_cases hk : k = k0
    · simp [ainsert, hk, alookup]
    · simp [ainsert, hk, alookup, ih]

theorem alookup_ainsert_other [DecidableEq κ] (m : List (κ × α))
    (k k' : κ) (v : α) (h : k' ≠ k) :
    alookup (ainsert m k v) k' = alookup m k' := by
  induction m with
  | nil => simp [ainsert, alookup, h]
  | cons p t ih =>
    obtain ⟨k0, v0⟩ := p
    by_cases hk : k = k0
    · subst hk
      simp [ainsert, alookup, h]
    · by_cases hk' : k' = k0
      · simp [ainsert, alookup, hk, hk']
      · simp [ainsert, alookup, hk, hk', ih]

theorem alookup_isSome_of_key_mem [DecidableEq κ] {m : List (κ × α)} {k : κ}
    (h : ∃ p ∈ m, p.1 = k) : (alookup m k).isSome := by
  induction m with
  | nil => simp at h
  | cons p t ih =>
    obtain ⟨k0, v0⟩ := p
    by_cases hk : k = k0
    · simp [alookup, hk]
    · rw [alookup, if_neg hk]
      apply ih
      obtain ⟨q, hq, hq1⟩ := h
      rcases List.mem_cons.mp hq with hq' | hq'
      · rw [hq'] at hq1
        exact absurd hq1.symm hk
      · exact ⟨q, hq', hq1⟩

theorem alookup_append_of_some [DecidableEq κ] {m1 : List (κ × α)} {k : κ}
    {v : α} (m2 : List (κ × α)) (h : alookup m1 k = some v) :
    alookup (m1 ++ m2) k = some v := by
  induction m1 with
  | nil => simp [alookup] at h
  | cons p t ih =>
    obtain ⟨k0, v0⟩ := p
    by_cases hk : k = k0
    · rw [alookup, if_pos hk] at h
      simpa [alookup, hk] using h
    · rw [alookup, if_neg hk] at h
      simpa [alookup, hk] using ih h

theorem alookup_append_of_none [DecidableEq κ] {m1 : List (κ × α)} {k : κ}
    (m2 : List (κ × α)) (h : alookup m1 k = none) :
    alookup (m1 ++ m2) k = alookup m2 k := by
  induction m1 with
  | nil => simp
  | cons p t ih =>
    obtain ⟨k0, v0⟩ := p
    by_cases hk : k = k0
    · rw [alookup, if_pos hk] at h
      simp at h
    · rw [alookup, if_neg hk] at h
      simpa [alookup, hk] using ih h

/-! ### Ledger lemmas -/

theorem checkedAdd_eq_some {cap a b r : Nat} :
    checkedAdd cap a b = some r ↔ a + b ≤ cap ∧ r = a + b := by
  rw [checkedAdd]
  split_ifs with h
  · simp [h, eq_comm]
  · simp [h]

theorem checkedSub_eq_some {a b r : Nat} :
    checkedSub a b = some r ↔ b ≤ a ∧ r = a - b := by
  rw [checkedSub]
  split_ifs with h
  · simp [h, eq_comm]
  · simp [h]

theorem sumBalances_cons (k : UserId) (v : UserSummary PublicKey)
    (t : List (UserId × UserSummary PublicKey)) :
    sumBalances ((k, v) :: t) = v.balance + sumBalances t := by
  simp [sumBalances]

theorem sumBalances_ainsert_none [DecidableEq UserId]
    {m : List (UserId × UserSummary PublicKey)} {k : UserId}
    {v : UserSummary PublicKey} (h : alookup m k = none) :
    sumBalances (ainsert m k v) = sumBalances m + v.balance := by
  induction m with
  | nil => simp [ainsert, sumBalances]
  | cons p t ih =>
    obtain ⟨k0, v0⟩ := p
    by_cases hk : k = k0
    · rw [alookup, if_pos hk] at h
      simp at h
    · rw [alookup, if_neg hk] at h
      rw [ainsert, if_neg hk, sumBalances_cons, sumBalances_cons, ih h]
      omega

theorem sumBalances_ainsert_some [DecidableEq UserId]
    {m : List (UserId × UserSummary PublicKey)} {k : UserId}
    {v s : UserSummary PublicKey} (h : alookup m k = some s) :
    sumBalances (ainsert m k v) + s.balance = sumBalances m + v.balance := by
  induction m with
  | nil => simp [alookup] at h
  | cons p t ih =>
    obtain ⟨k0, v0⟩ := p
    by_cases hk : k = k0
    · rw [alookup, if_pos hk] at h
      injection h with h
      subst h
      rw [ainsert, if_pos hk, sumBalances_cons, sumBalances_cons]
      omega
    · rw [alookup, if_neg hk] at h
      rw [ainsert, if_neg hk, sumBalances_cons, sumBalances_cons]
      have := ih h
      omega

theorem applyEvent_sum [DecidableEq UserId] {cap : Nat}
    {m m' : List (UserId × UserSummary PublicKey)}
    {e : LedgerEvent UserId PublicKey Signature}
    (h : applyEvent cap m e = some m') :
    sumBalances m' = sumBalances m + mintAmount e := by
  match e with
  | .NewUser identifier public_key =>
    cases halook : alookup m identifier with
    | some s =>
      simp only [applyEvent, halook] at h
      exact absurd h (by simp)
    | none =>
      simp only [applyEvent, halook] at h
      injection h with h
      subst h
      rw [sumBalances_ainsert_none halook, mintAmount]
  | .Mint beneficiary amount =>
    cases halook : alookup m beneficiary with
    | none =>
      simp only [applyEvent, halook] at h
      exact absurd h (by simp)
    | some s =>
      cases hadd : checkedAdd cap s.balance amount with
      | none =>
        simp only [applyEvent, halook, hadd] at h
        exact absurd h (by simp)
      | some b =>
        simp only [applyEvent, halook, hadd] at h
        injection h with h
        subst h
        obtain ⟨-, hb⟩ := checkedAdd_eq_some.mp hadd
        have hsum : sumBalances (ainsert m beneficiary
              (⟨b, s.public_key⟩ : UserSummary PublicKey)) + s.balance =
            sumBalances m + b :=
          @sumBalances_ainsert_some _ _ _ m beneficiary
            ⟨b, s.public_key⟩ s halook
        rw [mintAmount]
        omega
  | .Transfer benefactor beneficiary amount sig =>
    cases halook1 : alookup m benefactor with
    | none =>
      simp only [applyEvent, halook1] at h
      exact absurd h (by simp)
    | some s1 =>
      cases hsub : checkedSub s1.balance amount with
      | none =>
        simp only [applyEvent, halook1, hsub] at h
        exact absurd h (by simp)
      | some b1 =>
        cases halook2 :
            alookup (ainsert m benefactor ⟨b1, s1.public_key⟩) beneficiary with
        | none =>
          simp only [applyEvent, halook1, hsub, halook2] at h
          exact absurd h (by simp)
        | some s2 =>
          cases hadd : checkedAdd cap s2.balance amount with
          | none =>
            simp only [applyEvent, halook1, hsub, halook2, hadd] at h
            exact absurd h (by simp)
          | some b2 =>
            simp only [applyEvent, halook1, hsub, halook2, hadd] at h
            injection h with h
            subst h
            obtain ⟨-, hb1⟩ := checkedSub_eq_some.mp hsub
            obtain ⟨-, hb2⟩ := checkedAdd_eq_some.mp hadd
            have hle : amount ≤ s1.balance := (checkedSub_eq_some.mp hsub).1
            have hsum1 : sumBalances (ainsert m benefactor
                  (⟨b1, s1.public_key⟩ : UserSummary PublicKey)) +
                  s1.balance = sumBalances m + b1 :=
              @sumBalances_ainsert_some _ _ _ m benefactor
                ⟨b1, s1.public_key⟩ s1 halook1
            have hsum2 : sumBalances (ainsert
                  (ainsert m benefactor ⟨b1, s1.public_key⟩) beneficiary
                  (⟨b2, s2.public_key⟩ : UserSummary PublicKey)) +
                  s2.balance =
                sumBalances (ainsert m benefactor ⟨b1, s1.public_key⟩) + b2 :=
              @sumBalances_ainsert_some _ _ _
                (ainsert m benefactor ⟨b1, s1.public_key⟩) beneficiary
                ⟨b2, s2.public_key⟩ s2 halook2
            rw [mintAmount]
            omega

theorem ledger_fold_none [DecidableEq UserId] (cap : Nat)
    (evs : List (LedgerEvent UserId PublicKey Signature)) :
    evs.foldl (fun acc e => acc.bind fun m => applyEvent cap m e)
      (none : Option (List (UserId × UserSummary PublicKey))) = none := by
  induction evs with
  | nil => rfl
  | cons e t ih => simpa using ih

theorem ledger_fold_sum [DecidableEq UserId] {cap : Nat} :
    ∀ (evs : List (LedgerEvent UserId PublicKey Signature))
      (m0 m : List (UserId × UserSummary PublicKey)),
      evs.foldl (fun acc e => acc.bind fun m => applyEvent cap m e)
          (some m0) = some m →
      sumBalances m = sumBalances m0 + mintTotal evs := by
  intro evs
  induction evs with
  | nil =>
    intro m0 m h
    injection h with h
    subst h
    simp [mintTotal]
  | cons e t ih =>
    intro m0 m h
    rw [List.foldl_cons] at h
    cases happ : applyEvent cap m0 e with
    | none =>
      rw [show (some m0).bind (fun m => applyEvent cap m e) = none by
        simp [happ]] at h
      rw [ledger_fold_none] at h
      exact absurd h (by simp)
    | some m1 =>
      rw [show (some m0).bind (fun m => applyEvent cap m e) = some m1 by
        simp [happ]] at h
      have h1 := ih m1 m h
      have h2 := applyEvent_sum happ
      have h3 : mintTotal (e :: t) = mintAmount e + mintTotal t := by
        simp [mintTotal]
      omega

theorem users_append [DecidableEq UserId] (cap : Nat)
    (evs : List (LedgerEvent UserId PublicKey Signature))
    (e : LedgerEvent UserId PublicKey Signature) :
    users cap (evs ++ [e]) =
      (users cap evs).bind fun m => applyEvent cap m e := by
  rw [users, users, List.foldl_append]
  rfl

/-- Successful `with_event` appends exactly one event, and the checks it ran
guarantee that replaying the extended history through `users` cannot panic. -/
theorem with_event_ok_shape [DecidableEq UserId] {B : Type} {cap : Nat}
    {l l' : Ledger UserId PublicKey Signature}
    {e : LedgerEvent UserId PublicKey Signature} {bid : B} {idx : Nat}
    {v : TransferVerifierArgs B UserId PublicKey Signature → Bool}
    (h : with_event cap l e bid idx v = some (.ok l')) :
    l'.events = l.events ++ [e] ∧
      ∃ m m', users cap l.events = some m ∧ applyEvent cap m e = some m' := by
  match e with
  | .NewUser identifier public_key =>
    rw [with_event, Option.map_eq_some'] at h
    obtain ⟨m, hm, hmatch⟩ := h
    cases halook : alookup m identifier with
    | some s => rw [halook] at hmatch; exact absurd hmatch (by simp)
    | none =>
      rw [halook] at hmatch
      injection hmatch with hmatch
      refine ⟨by rw [← hmatch], m, ainsert m identifier ⟨0, public_key⟩,
        hm, ?_⟩
      simp only [applyEvent, halook]
  | .Mint beneficiary amount =>
    rw [with_event, Option.map_eq_some'] at h
    obtain ⟨r, hr, hmatch⟩ := h
    match r with
    | .error e0 => exact absurd hmatch (by simp)
    | .ok s0 =>
      rw [could_receive, Option.map_eq_some'] at hr
      obtain ⟨m, hm, hg⟩ := hr
      cases halook : alookup m beneficiary with
      | none => rw [halook] at hg; exact absurd hg (by simp)
      | some s =>
        simp only [halook] at hg
        cases hadd : checkedAdd cap s.balance amount with
        | none =>
          simp only [hadd] at hg
          exact absurd hg (by simp)
        | some b =>
          injection hmatch with hmatch
          refine ⟨by rw [← hmatch], m, ainsert m beneficiary
            ⟨b, s.public_key⟩, hm, ?_⟩
          simp only [applyEvent, halook, hadd]
  | .Transfer benefactor beneficiary amount sig =>
    rw [with_event, Option.bind_eq_some] at h
    obtain ⟨r1, hr1, hrest⟩ := h
    match r1 with
    | .error e0 => simp at hrest
    | .ok s0 =>
      rw [Option.map_eq_some'] at hrest
      obtain ⟨r2, hr2, hmatch⟩ := hrest
      match r2 with
      | .error e0 => exact absurd hmatch (by simp)
      | .ok s2 =>
        rw [could_receive, Option.map_eq_some'] at hr1
        obtain ⟨m, hm, hg1⟩ := hr1
        rw [could_send, Option.map_eq_some'] at hr2
        obtain ⟨m2, hm2, hg2⟩ := hr2
        rw [hm] at hm2
        injection hm2 with hm2
        subst hm2
        cases halook1 : alookup m beneficiary with
        | none => rw [halook1] at hg1; exact absurd hg1 (by simp)
        | some sb =>
          simp only [halook1] at hg1
          cases hadd : checkedAdd cap sb.balance amount with
          | none =>
            simp only [hadd] at hg1
            exact absurd hg1 (by simp)
          | some badd =>
            cases halook2 : alookup m benefactor with
            | none => rw [halook2] at hg2; exact absurd hg2 (by simp)
            | some sf =>
              simp only [halook2] at hg2
              cases hsub : checkedSub sf.balance amount with
              | none =>
                simp only [hsub] at hg2
                exact absurd hg2 (by simp)
              | some bsub =>
                simp only [hsub] at hg2
                injection hg2 with hg2
                subst hg2
                have hmatch' :
                    (if v ⟨bid, idx, benefactor, beneficiary, amount,
                        sf.public_key, sig⟩ = true then
                      (Except.ok ⟨l.events ++ [LedgerEvent.Transfer benefactor
                          beneficiary amount sig]⟩ :
                        Except AcceptEventError
                          (Ledger UserId PublicKey Signature))
                    else Except.error AcceptEventError.InvalidSignature) =
                      Except.ok l' := hmatch
                have hl' : l'.events = l.events ++
                    [LedgerEvent.Transfer benefactor beneficiary amount sig] := by
                  cases hverif : v ⟨bid, idx, benefactor, beneficiary, amount,
                      sf.public_key, sig⟩ with
                  | true =>
                    rw [hverif, if_pos rfl] at hmatch'
                    injection hmatch' with hmatch'
                    rw [← hmatch']
                  | false =>
                    rw [hverif] at hmatch'
                    rw [if_neg (by simp)] at hmatch'
                    exact absurd hmatch' (by simp)
                obtain ⟨hle, hbsub⟩ := checkedSub_eq_some.mp hsub
                obtain ⟨hcap, hbadd⟩ := checkedAdd_eq_some.mp hadd
                have happ : ∃ mf, applyEvent cap m
                    (LedgerEvent.Transfer benefactor beneficiary amount sig) =
                      some mf := by
                  by_cases hself : beneficiary = benefactor
                  · subst hself
                    have heq : sb = sf := by
                      rw [halook1] at halook2
                      injection halook2 with halook2
                    have hsome2 : checkedAdd cap bsub amount =
                        some (bsub + amount) := by
                      rw [checkedAdd_eq_some]
                      refine ⟨?_, rfl⟩
                      subst heq
                      omega
                    simp only [applyEvent, halook2, hsub,
                      alookup_ainsert_self, hsome2]
                    exact ⟨_, rfl⟩
                  · simp only [applyEvent, halook2, hsub,
                      alookup_ainsert_other m benefactor beneficiary
                        ⟨bsub, sf.public_key⟩ hself,
                      halook1, hadd]
                    exact ⟨_, rfl⟩
                obtain ⟨mf, hmf⟩ := happ
                exact ⟨hl', m, mf, hm, hmf⟩

/-- On every ledger reachable through accepted events, `users` is defined
(no panicking branch is ever reached). -/
theorem ledgerReach_users [DecidableEq UserId] {B : Type} {cap : Nat}
    {l : Ledger UserId PublicKey Signature} (h : LedgerReach B cap l) :
    ∃ m, users cap l.events = some m := by
  induction h with
  | nil => exact ⟨[], rfl⟩
  | step hr hw ih =>
    obtain ⟨hev, m, m', hm, happ⟩ := with_event_ok_shape hw
    refine ⟨m', ?_⟩
    rw [hev, users_append, hm, Option.some_bind, happ]

/-! ### Ledger claim theorems -/

/-- C9 (theorem): on every ledger built from the empty ledger by events each
accepted by `with_event`, `users` never reaches a panicking branch: the
duplicate-user assertion and the missing-account, mint-overflow,
transfer-overdraw and transfer-overflow expects are unreachable, so `users`
is total on such ledgers. -/
theorem users_total_on_valid_ledgers [DecidableEq UserId] {B : Type}
    {cap : Nat} {l : Ledger UserId PublicKey Signature}
    (h : LedgerReach B cap l) : (users cap l.events).isSome := by
  obtain ⟨m, hm⟩ := ledgerReach_users h
  rw [hm]
  rfl

/-- C9 (witness): a concrete reachable ledger on which `users` is defined. -/
theorem users_total_on_valid_ledgers_witness :
    (users 100
      (⟨[.NewUser 0 0, .Mint 0 10]⟩ : Ledger Nat Nat Nat).events).isSome :=
  users_total_on_valid_ledgers
    (LedgerReach.step (LedgerReach.step LedgerReach.nil
      (by decide :
        with_event 100 (⟨[]⟩ : Ledger Nat Nat Nat) (.NewUser 0 0) (0 : Nat) 0
          (fun _ => true) = some (.ok ⟨[.NewUser 0 0]⟩)))
      (by decide :
        with_event 100 (⟨[.NewUser 0 0]⟩ : Ledger Nat Nat Nat) (.Mint 0 10)
          (0 : Nat) 0 (fun _ => true) =
            some (.ok ⟨[.NewUser 0 0, .Mint 0 10]⟩)))

/-- C7 (theorem): on every ledger built from the empty ledger by accepted
events, the sum of all balances in the map returned by `users` equals the
sum of all minted amounts in the event log. -/
theorem ledger_conservation [DecidableEq UserId] {B : Type} {cap : Nat}
    {l : Ledger UserId PublicKey Signature} (h : LedgerReach B cap l) :
    ∃ m, users cap l.events = some m ∧
      sumBalances m = mintTotal l.events := by
  obtain ⟨m, hm⟩ := ledgerReach_users h
  refine ⟨m, hm, ?_⟩
  have hsum := ledger_fold_sum l.events [] m hm
  simpa [sumBalances] using hsum

/-- C7 (witness): conservation evaluated on a concrete reachable ledger. -/
theorem ledger_conservation_witness :
    ∃ m, users 100
        (⟨[.NewUser 0 0, .Mint 0 10]⟩ : Ledger Nat Nat Nat).events = some m ∧
      sumBalances m =
        mintTotal (⟨[.NewUser 0 0, .Mint 0 10]⟩ : Ledger Nat Nat Nat).events :=
  ledger_conservation
    (LedgerReach.step (LedgerReach.step LedgerReach.nil
      (by decide :
        with_event 100 (⟨[]⟩ : Ledger Nat Nat Nat) (.NewUser 0 0) (0 : Nat) 0
          (fun _ => true) = some (.ok ⟨[.NewUser 0 0]⟩)))
      (by decide :
        with_event 100 (⟨[.NewUser 0 0]⟩ : Ledger Nat Nat Nat) (.Mint 0 10)
          (0 : Nat) 0 (fun _ => true) =
            some (.ok ⟨[.NewUser 0 0, .Mint 0 10]⟩)))

/-- C6 (theorem): `with_event` on `NewUser` fails with `UserIdTaken` exactly
when the identifier already has a summary and otherwise appends the event,
the new user starting with zero balance; on `Mint` it fails with
`NoSuchAccount` exactly when the beneficiary is unknown and with
`WouldOverflow` exactly when balance + amount exceeds the capacity, and
otherwise credits the amount; and every successful result is exactly the
original ledger with the event appended (the receiving ledger itself is
never mutated, `with_event` being a pure function on it). -/
theorem with_event_new_user_mint_spec [DecidableEq UserId] {B : Type}
    (cap : Nat) (l : Ledger UserId PublicKey Signature)
    (m : List (UserId × UserSummary PublicKey)) (bid : B) (idx : Nat)
    (v : TransferVerifierArgs B UserId PublicKey Signature → Bool)
    (h : users cap l.events = some m) :
    (∀ identifier public_key,
      ((∃ s, alookup m identifier = some s) →
        with_event cap l (.NewUser identifier public_key) bid idx v =
          some (.error .UserIdTaken)) ∧
      (alookup m identifier = none →
        with_event cap l (.NewUser identifier public_key) bid idx v =
          some (.ok ⟨l.events ++ [.NewUser identifier public_key]⟩) ∧
        users cap (l.events ++ [.NewUser identifier public_key]) =
          some (ainsert m identifier ⟨0, public_key⟩))) ∧
    (∀ beneficiary amount,
      (alookup m beneficiary = none →
        with_event cap l (.Mint beneficiary amount) bid idx v =
          some (.error .NoSuchAccount)) ∧
      (∀ s, alookup m beneficiary = some s →
        (cap < s.balance + amount →
          with_event cap l (.Mint beneficiary amount) bid idx v =
            some (.error .WouldOverflow)) ∧
        (s.balance + amount ≤ cap →
          with_event cap l (.Mint beneficiary amount) bid idx v =
            some (.ok ⟨l.events ++ [.Mint beneficiary amount]⟩) ∧
          users cap (l.events ++ [.Mint beneficiary amount]) =
            some (ainsert m beneficiary
              ⟨s.balance + amount, s.public_key⟩)))) ∧
    (∀ e r, with_event cap l e bid idx v = some r →
      ∀ l', r = .ok l' → l'.events = l.events ++ [e]) := by
  refine ⟨?_, ?_, ?_⟩
  · intro identifier public_key
    constructor
    · rintro ⟨s, hs⟩
      simp only [with_event, h, Option.map_some', hs]
    · intro hnone
      constructor
      · simp only [with_event, h, Option.map_some', hnone]
      · rw [users_append, h, Option.some_bind]
        simp only [applyEvent, hnone]
  · intro beneficiary amount
    constructor
    · intro hnone
      simp only [with_event, could_receive, h, Option.map_some', hnone]
    · intro s hs
      constructor
      · intro hover
        have hadd : checkedAdd cap s.balance amount = none := by
          rw [checkedAdd, if_neg]
          omega
        simp only [with_event, could_receive, h, Option.map_some', hs, hadd]
      · intro hfit
        have hadd : checkedAdd cap s.balance amount =
            some (s.balance + amount) := by
          rw [checkedAdd, if_pos hfit]
        constructor
        · simp only [with_event, could_receive, h, Option.map_some', hs, hadd]
        · rw [users_append, h, Option.some_bind]
          simp only [applyEvent, hs, hadd]
  · intro e r hr l' hrl'
    subst hrl'
    exact (with_event_ok_shape hr).1

/-- C6 (witness): the `NewUser` success case evaluated on the empty
ledger. -/
theorem with_event_new_user_mint_spec_witness :
    with_event 100 (⟨[]⟩ : Ledger Nat Nat Nat) (.NewUser 0 0) (0 : Nat) 0
        (fun _ => true) = some (.ok ⟨[.NewUser 0 0]⟩) :=
  (((with_event_new_user_mint_spec 100 ⟨[]⟩ [] 0 0 (fun _ => true)
    rfl).1 0 0).2 rfl).1

/-- C1 (counterexample): the claim says every self-transfer is rejected
with a `CannotTransferToSelf` error, but `AcceptEventError` has no such
variant and `with_event` makes no benefactor-beneficiary comparison: this
concrete self-transfer is accepted. -/
theorem with_event_accepts_self_transfer_cex :
    with_event 100 (⟨[.NewUser 0 0, .Mint 0 10]⟩ : Ledger Nat Nat Nat)
      (.Transfer 0 0 5 0) (0 : Nat) 0 (fun _ => true) =
    some (.ok ⟨[.NewUser 0 0, .Mint 0 10, .Transfer 0 0 5 0]⟩) := by
  decide

/-- C1 (theorem, amended): `with_event` performs no self-transfer check and
the source has no `CannotTransferToSelf` error; a `Transfer` whose
benefactor equals its beneficiary is validated like any other transfer and
is accepted whenever the account exists, its balance + amount fits the
capacity, its balance covers the amount, and the verifier accepts. -/
theorem with_event_self_transfer_accepted [DecidableEq UserId] {B : Type}
    (cap : Nat) (l : Ledger UserId PublicKey Signature)
    (m : List (UserId × UserSummary PublicKey)) (uid : UserId) (amt : Nat)
    (sig : Signature) (bid : B) (idx : Nat)
    (v : TransferVerifierArgs B UserId PublicKey Signature → Bool)
    (s : UserSummary PublicKey) (hm : users cap l.events = some m)
    (hs : alookup m uid = some s) (hov : s.balance + amt ≤ cap)
    (hod : amt ≤ s.balance)
    (hv : v ⟨bid, idx, uid, uid, amt, s.public_key, sig⟩ = true) :
    with_event cap l (.Transfer uid uid amt sig) bid idx v =
      some (.ok ⟨l.events ++ [.Transfer uid uid amt sig]⟩) := by
  have hadd : checkedAdd cap s.balance amt = some (s.balance + amt) := by
    rw [checkedAdd, if_pos hov]
  have hsub : checkedSub s.balance amt = some (s.balance - amt) := by
    rw [checkedSub, if_pos hod]
  simp only [with_event, could_receive, could_send, hm, Option.map_some',
    hs, hadd, hsub, Option.some_bind, hv, if_pos]

/-- C1 (witness of the amended theorem): a self-transfer of 3 out of a
balance of 10 is accepted. -/
theorem with_event_self_transfer_accepted_witness :
    with_event 100 (⟨[.NewUser 0 0, .Mint 0 10]⟩ : Ledger Nat Nat Nat)
      (.Transfer 0 0 3 0) (0 : Nat) 0 (fun _ => true) =
    some (.ok ⟨[.NewUser 0 0, .Mint 0 10, .Transfer 0 0 3 0]⟩) :=
  with_event_self_transfer_accepted 100
    (⟨[.NewUser 0 0, .Mint 0 10]⟩ : Ledger Nat Nat Nat)
    [(0, ⟨10, 0⟩)] 0 3 0 (0 : Nat) 0 (fun _ => true) ⟨10, 0⟩
    (by decide) (by decide) (by decide) (by decide) rfl

/-! ### Block-graph claim theorems: concrete evaluations -/

/-- C4 (theorem): when a block with the incoming id is already stored,
`add_block` leaves the whole state unchanged and returns `Ok(())` exactly
when the incoming block is identical to the stored one and `WouldClobber`
exactly when it differs; the stored block is never replaced. -/
theorem add_block_existing_id [LinearOrder β] [DecidableEq ε]
    (g : BlockGraph β ε) (b existing : Block β ε)
    (h : alookup g.block_ids_to_blocks b.id = some existing) :
    (existing = b → add_block g b = some (g, .ok ())) ∧
    (existing ≠ b → add_block g b = some (g, .error .WouldClobber)) := by
  constructor
  · intro he
    simp only [add_block, h]
    rw [if_pos he]
  · intro hne
    simp only [add_block, h]
    rw [if_neg hne]

/-- C4 (witness): re-adding the identical block is a no-op success, and a
different block under the same id is rejected, both leaving the state
untouched. -/
theorem add_block_existing_id_witness :
    add_block (⟨[(0, ⟨none, 0, []⟩)], ⟨[0], []⟩,
        [⟨none, 0, []⟩]⟩ : BlockGraph Nat Nat) ⟨none, 0, []⟩ =
      some (⟨[(0, ⟨none, 0, []⟩)], ⟨[0], []⟩, [⟨none, 0, []⟩]⟩, .ok ()) ∧
    add_block (⟨[(0, ⟨none, 0, []⟩)], ⟨[0], []⟩,
        [⟨none, 0, []⟩]⟩ : BlockGraph Nat Nat) ⟨none, 0, [7]⟩ =
      some (⟨[(0, ⟨none, 0, []⟩)], ⟨[0], []⟩, [⟨none, 0, []⟩]⟩,
        .error .WouldClobber) :=
  ⟨(add_block_existing_id _ ⟨none, 0, []⟩ ⟨none, 0, []⟩ (by decide)).1 rfl,
    (add_block_existing_id _ ⟨none, 0, [7]⟩ ⟨none, 0, []⟩
      (by decide)).2 (by decide)⟩

/-- C5 (theorem): the tie-break example: after `a` (id 0) and `a → b`
(id 1) the winning chain is `[a, b]`; after also `a → c` (id 2) it stays
`[a, b]`; after also `c → d` (id 3) it becomes `[a, c, d]`. -/
theorem winning_chain_tie_break_example :
    ((addSeq (BlockGraph.empty Nat Nat)
        [⟨none, 0, []⟩, ⟨some 0, 1, []⟩]).map fun g =>
      g.winning_chain.map fun b => b.id) = some [0, 1] ∧
    ((addSeq (BlockGraph.empty Nat Nat)
        [⟨none, 0, []⟩, ⟨some 0, 1, []⟩, ⟨some 0, 2, []⟩]).map fun g =>
      g.winning_chain.map fun b => b.id) = some [0, 1] ∧
    ((addSeq (BlockGraph.empty Nat Nat)
        [⟨none, 0, []⟩, ⟨some 0, 1, []⟩, ⟨some 0, 2, []⟩,
          ⟨some 2, 3, []⟩]).map fun g =>
      g.winning_chain.map fun b => b.id) = some [0, 2, 3] := by
  decide

/-- C3 (code-bug evaluation): insert root 0, then block 3 with absent
parent 1, then block 1 with parent 0.  Block 1 is appended through the
O(1) fast path although it already has a child, so the cached chain stays
`[0, 1]` while recomputing from the same final block set gives
`[0, 1, 3]`; inserting the same three blocks in the order 0, 1, 3 ends
with the cached chain `[0, 1, 3]`. -/
theorem fast_path_stale_winning_chain :
    ((addSeq (BlockGraph.empty Nat Nat)
        [⟨none, 0, []⟩, ⟨some 1, 3, []⟩, ⟨some 0, 1, []⟩]).map fun g =>
      (g.winning_chain.map fun b => b.id,
        (calculate_winning_chain g).map fun w => w.map fun b => b.id)) =
      some ([0, 1], some [0, 1, 3]) ∧
    ((addSeq (BlockGraph.empty Nat Nat)
        [⟨none, 0, []⟩, ⟨some 0, 1, []⟩, ⟨some 1, 3, []⟩]).map fun g =>
      g.winning_chain.map fun b => b.id) = some [0, 1, 3] := by
  decide

/-! ### Simple-path machinery for C10 -/

theorem mem_insertNew [DecidableEq α] {l : List α} {x y : α}
    (h : x ∈ insertNew l y) : x ∈ l ∨ x = y := by
  rw [insertNew] at h
  split_ifs at h with hy
  · exact .inl h
  · rcases List.mem_append.mp h with h | h
    · exact .inl h
    · simp at h
      exact .inr h

theorem insertNew_nodup [DecidableEq α] {l : List α} (h : l.Nodup) (x : α) :
    (insertNew l x).Nodup := by
  rw [insertNew]
  split_ifs with hx
  · exact h
  · rw [List.nodup_append]
    refine ⟨h, by simp, ?_⟩
    intro a ha hax
    simp at hax
    subst hax
    exact hx ha

theorem mem_successors [DecidableEq β] {g : DiGraph β} {a s : β} :
    s ∈ g.successors a ↔ (a, s) ∈ g.edges := by
  rw [DiGraph.successors]
  constructor
  · intro hs
    obtain ⟨e, he, hsnd⟩ := List.mem_map.mp hs
    obtain ⟨e1, e2⟩ := e
    obtain ⟨hmem, hdec⟩ := List.mem_filter.mp he
    have h1 : e1 = a := of_decide_eq_true hdec
    subst h1
    have h2 : e2 = s := hsnd
    subst h2
    exact hmem
  · intro h
    apply List.mem_map.mpr
    refine ⟨(a, s), List.mem_filter.mpr ⟨h, ?_⟩, rfl⟩
    simp

theorem successors_nodup [DecidableEq β] {g : DiGraph β}
    (h : g.edges.Nodup) (a : β) : (g.successors a).Nodup := by
  rw [DiGraph.successors]
  apply List.Nodup.map_on ?_ (h.filter _)
  intro e1 h1 e2 h2 hsnd
  have he1 : e1.1 = a := of_decide_eq_true (List.mem_filter.mp h1).2
  have he2 : e2.1 = a := of_decide_eq_true (List.mem_filter.mp h2).2
  obtain ⟨a1, b1⟩ := e1
  obtain ⟨a2, b2⟩ := e2
  have he1' : a1 = a := he1
  have he2' : a2 = a := he2
  have hsnd' : b1 = b2 := hsnd
  rw [he1', he2', hsnd']

theorem WalkR.ne_nil {edges : List (β × β)} {a b : β} {p : List β}
    (h : WalkR edges a p b) : p ≠ [] := by
  cases h with
  | single _ => simp
  | snoc _ _ => simp

theorem WalkR.last_mem {edges : List (β × β)} {a b : β} {p : List β}
    (h : WalkR edges a p b) : p.getLast? = some b := by
  cases h with
  | single _ => rfl
  | snoc _ _ => exact List.getLast?_concat _

theorem WalkR.cons_left {edges : List (β × β)} {a s b : β} {q : List β}
    (he : (a, s) ∈ edges) (h : WalkR edges s q b) :
    WalkR edges a (s :: q) b := by
  induction h with
  | single h1 => exact WalkR.snoc (WalkR.single he) h1
  | snoc hw h2 ih => exact WalkR.snoc ih h2

theorem WalkR.mem_targets {edges : List (β × β)} {a b : β} {p : List β}
    (h : WalkR edges a p b) : ∀ x ∈ p, ∃ e ∈ edges, e.2 = x := by
  induction h with
  | single h1 =>
    intro x hx
    simp at hx
    subst hx
    exact ⟨_, h1, rfl⟩
  | snoc hw h2 ih =>
    intro x hx
    rcases List.mem_append.mp hx with hx | hx
    · exact ih x hx
    · simp at hx
      subst hx
      exact ⟨_, h2, rfl⟩

/-- In a graph where each node has at most one incoming edge, two walks
between the same endpoints that avoid returning to their start are
identical. -/
theorem walk_unique {edges : List (β × β)} (htu : TargetsUnique edges) :
    ∀ {a b : β} {p q : List β}, WalkR edges a p b → WalkR edges a q b →
      a ∉ p.dropLast → a ∉ q.dropLast → p = q := by
  intro a b p q hp
  induction hp generalizing q with
  | single h1 =>
    intro hq hpa hqa
    cases hq with
    | single h2 => rfl
    | snoc hw h2 =>
      have hx := htu _ _ _ h2 h1
      subst hx
      exfalso
      apply hqa
      rw [List.dropLast_concat]
      exact List.mem_of_mem_getLast? hw.last_mem
  | snoc hw h2 ih =>
    intro hq hpa hqa
    cases hq with
    | single h3 =>
      have hx := htu _ _ _ h2 h3
      subst hx
      exfalso
      apply hpa
      rw [List.dropLast_concat]
      exact List.mem_of_mem_getLast? hw.last_mem
    | snoc hw2 h3 =>
      have hx := htu _ _ _ h2 h3
      subst hx
      have hpa' : a ∉ List.dropLast _ := fun hmem => hpa (by
        rw [List.dropLast_concat]
        exact List.dropLast_subset _ hmem)
      have hqa' : a ∉ List.dropLast _ := fun hmem => hqa (by
        rw [List.dropLast_concat]
        exact List.dropLast_subset _ hmem)
      rw [ih hw2 hpa' hqa']

/-- Every path found by the depth-first search is a walk to the target
whose interior nodes avoid the visited set. -/
theorem simplePathsAux_sound [DecidableEq β] {g : DiGraph β} {target : β} :
    ∀ (fuel : Nat) (visited : List β) (a : β) (p : List β),
      p ∈ simplePathsAux g target fuel visited a →
      WalkR g.edges a p target ∧ ∀ x ∈ p.dropLast, x ∉ visited := by
  intro fuel
  induction fuel with
  | zero =>
    intro visited a p hp
    simp [simplePathsAux] at hp
  | succ fuel ih =>
    intro visited a p hp
    rw [simplePathsAux] at hp
    obtain ⟨s, hs, hbranch⟩ := List.mem_flatMap.mp hp
    by_cases hsb : s = target
    · rw [if_pos hsb] at hbranch
      simp at hbranch
      subst hbranch
      subst hsb
      refine ⟨WalkR.single (mem_successors.mp hs), ?_⟩
      intro x hx
      simp at hx
    · rw [if_neg hsb] at hbranch
      by_cases hsv : s ∈ visited
      · rw [if_pos hsv] at hbranch
        simp at hbranch
      · rw [if_neg hsv] at hbranch
        obtain ⟨q, hq, rfl⟩ := List.mem_map.mp hbranch
        obtain ⟨hwq, hdis⟩ := ih (s :: visited) s q hq
        refine ⟨WalkR.cons_left (mem_successors.mp hs) hwq, ?_⟩
        intro x hx
        rw [List.dropLast_cons_of_ne_nil hwq.ne_nil] at hx
        rcases List.mem_cons.mp hx with rfl | hx
        · exact hsv
        · intro hxv
          exact hdis x hx (List.mem_cons_of_mem s hxv)

/-- Every path emitted by one branch of the search starts with that
branch's successor. -/
theorem simplePathsAux_branch_head [DecidableEq β] {g : DiGraph β}
    {target : β} {fuel : Nat} {visited : List β} {s : β} {p : List β}
    (hp : p ∈ (if s = target then [[s]]
      else if s ∈ visited then []
      else (simplePathsAux g target fuel (s :: visited) s).map
        fun q => s :: q)) :
    p.head? = some s := by
  by_cases hsb : s = target
  · rw [if_pos hsb] at hp
    simp at hp
    subst hp
    rfl
  · rw [if_neg hsb] at hp
    by_cases hsv : s ∈ visited
    · rw [if_pos hsv] at hp
      simp at hp
    · rw [if_neg hsv] at hp
      obtain ⟨q, hq, rfl⟩ := List.mem_map.mp hp
      rfl

/-- A `flatMap` whose branches each emit at most one element and any two
of whose emissions come from the same branch has at most one element. -/
theorem flatMap_length_le_one {f : β → List (List β)} :
    ∀ (l : List β), l.Nodup →
      (∀ s ∈ l, (f s).length ≤ 1) →
      (∀ s1, s1 ∈ l → ∀ s2, s2 ∈ l →
        ∀ p1, p1 ∈ f s1 → ∀ p2, p2 ∈ f s2 → s1 = s2) →
      (l.flatMap f).length ≤ 1 := by
  intro l
  induction l with
  | nil =>
    intro _ _ _
    simp
  | cons s t ih =>
    intro hnd hlen hexcl
    rw [List.flatMap_cons, List.length_append]
    cases hfs : f s with
    | nil =>
      simp only [List.length_nil, Nat.zero_add]
      exact ih hnd.of_cons (fun x hx => hlen x (.tail _ hx))
        (fun s1 h1 s2 h2 => hexcl s1 (.tail _ h1) s2 (.tail _ h2))
    | cons p ps =>
      have hflat : t.flatMap f = [] := by
        by_contra hne
        obtain ⟨q, hq⟩ := List.exists_mem_of_ne_nil _ hne
        obtain ⟨s2, hs2, hq2⟩ := List.mem_flatMap.mp hq
        have heq : s = s2 := hexcl s (.head _) s2 (.tail _ hs2) p
          (by rw [hfs]; exact .head _) q hq2
        subst heq
        exact (List.nodup_cons.mp hnd).1 hs2
      rw [hflat]
      simp only [List.length_nil, Nat.add_zero]
      exact hfs ▸ hlen s (.head _)

/-- With in-degrees at most one and a duplicate-free edge list, the
depth-first search finds at most one path: the `at_most_one` branch of
`calculate_winning_chain` marked `unreachable` is dead. -/
theorem simplePathsAux_length_le_one [DecidableEq β] {g : DiGraph β}
    (htu : TargetsUnique g.edges) (hnd : g.edges.Nodup) (target : β) :
    ∀ (fuel : Nat) (visited : List β) (a : β), a ∈ visited →
      (simplePathsAux g target fuel visited a).length ≤ 1 := by
  intro fuel
  induction fuel with
  | zero =>
    intro visited a ha
    simp [simplePathsAux]
  | succ fuel ih =>
    intro visited a ha
    rw [simplePathsAux]
    apply flatMap_length_le_one _ (successors_nodup hnd a)
    · intro s hs
      by_cases hsb : s = target
      · rw [if_pos hsb]
        simp
      · rw [if_neg hsb]
        by_cases hsv : s ∈ visited
        · rw [if_pos hsv]
          simp
        · rw [if_neg hsv]
          rw [List.length_map]
          exact ih (s :: visited) s (.head _)
    · intro s1 h1 s2 h2 p1 hp1 p2 hp2
      have hp1' : p1 ∈ simplePathsAux g target (fuel + 1) visited a := by
        rw [simplePathsAux]
        exact List.mem_flatMap.mpr ⟨s1, h1, hp1⟩
      have hp2' : p2 ∈ simplePathsAux g target (fuel + 1) visited a := by
        rw [simplePathsAux]
        exact List.mem_flatMap.mpr ⟨s2, h2, hp2⟩
      obtain ⟨hw1, hd1⟩ := simplePathsAux_sound (fuel + 1) visited a p1 hp1'
      obtain ⟨hw2, hd2⟩ := simplePathsAux_sound (fuel + 1) visited a p2 hp2'
      have hpeq : p1 = p2 := walk_unique htu hw1 hw2
        (fun hx => hd1 a hx ha) (fun hx => hd2 a hx ha)
      have hh1 := simplePathsAux_branch_head hp1
      have hh2 := simplePathsAux_branch_head hp2
      rw [hpeq] at hh1
      rw [hh1] at hh2
      exact Option.some.inj hh2

theorem all_simple_paths_length_le_one [DecidableEq β] {g : DiGraph β}
    (htu : TargetsUnique g.edges) (hnd : g.edges.Nodup) (a b : β) :
    (all_simple_paths g a b).length ≤ 1 := by
  rw [all_simple_paths, List.length_map]
  exact simplePathsAux_length_le_one htu hnd b _ [a] a (.head _)

/-! ### The reachability invariant and C10 -/

theorem inv_targets_unique [DecidableEq β] {g : BlockGraph β ε}
    (hinv : GraphInv g) : TargetsUnique g.block_id_graph.edges := by
  intro a b c ha hb
  obtain ⟨blk1, h1, hp1⟩ := hinv.edge_src (a, c) ha
  obtain ⟨blk2, h2, hp2⟩ := hinv.edge_src (b, c) hb
  have hblk := Option.some.inj (h1.symm.trans h2)
  subst hblk
  exact Option.some.inj (hp1.symm.trans hp2)

theorem root_blocks_lookup [LinearOrder β] {g : BlockGraph β ε}
    (hinv : GraphInv g) {r : β} (hr : r ∈ root_blocks g) :
    (alookup g.block_ids_to_blocks r).isSome := by
  rw [root_blocks, List.mem_insertionSort] at hr
  obtain ⟨p, hp, hmatch⟩ := List.mem_filterMap.mp hr
  cases hpar : p.2.parent with
  | some q =>
    rw [hpar] at hmatch
    simp at hmatch
  | none =>
    rw [hpar] at hmatch
    injection hmatch with hmatch
    apply alookup_isSome_of_key_mem
    exact ⟨p, hp, by rw [← hinv.id_eq p hp, hmatch]⟩

theorem path_mem_lookup [DecidableEq β] {g : BlockGraph β ε}
    (hinv : GraphInv g) {root leaf : β}
    (hroot : (alookup g.block_ids_to_blocks root).isSome)
    {c : List β} (hc : c ∈ all_simple_paths g.block_id_graph root leaf) :
    ∀ x ∈ c, (alookup g.block_ids_to_blocks x).isSome := by
  rw [all_simple_paths] at hc
  obtain ⟨p, hp, rfl⟩ := List.mem_map.mp hc
  obtain ⟨hw, -⟩ := simplePathsAux_sound _ _ _ _ hp
  intro x hx
  rcases List.mem_cons.mp hx with rfl | hx
  · exact hroot
  · obtain ⟨e, he, rfl⟩ := hw.mem_targets x hx
    obtain ⟨blk, hblk, -⟩ := hinv.edge_src e he
    rw [hblk]
    rfl

theorem foldl_preserve {γ α : Type} {P : γ → Prop} {f : γ → α → γ} :
    ∀ (l : List α) (init : γ), P init →
      (∀ acc x, x ∈ l → P acc → P (f acc x)) → P (l.foldl f init) := by
  intro l
  induction l with
  | nil =>
    intro init h _
    exact h
  | cons x t ih =>
    intro init h hstep
    rw [List.foldl_cons]
    exact ih _ (hstep init x (.head _) h)
      (fun acc y hy => hstep acc y (.tail _ hy))

theorem wcStep_good [LinearOrder β] {g : BlockGraph β ε}
    (hinv : GraphInv g) {root : β}
    (hroot : (alookup g.block_ids_to_blocks root).isSome)
    {acc : Option (List β)} (leaf : β)
    (hacc : ∃ w, acc = some w ∧
      ∀ x ∈ w, (alookup g.block_ids_to_blocks x).isSome) :
    ∃ w, wcStep g root acc leaf = some w ∧
      ∀ x ∈ w, (alookup g.block_ids_to_blocks x).isSome := by
  obtain ⟨w, rfl, hw⟩ := hacc
  rw [wcStep, Option.some_bind]
  by_cases hspec : root = leaf ∧ w.length = 0
  · rw [if_pos hspec]
    refine ⟨w ++ [root], rfl, ?_⟩
    intro x hx
    rcases List.mem_append.mp hx with hx | hx
    · exact hw x hx
    · simp at hx
      subst hx
      exact hroot
  · rw [if_neg hspec]
    have hle := all_simple_paths_length_le_one (inv_targets_unique hinv)
      hinv.edges_nodup root leaf
    cases hpaths : all_simple_paths g.block_id_graph root leaf with
    | nil => exact ⟨w, rfl, hw⟩
    | cons c rest =>
      cases rest with
      | nil =>
        refine ⟨if w.length < c.length then c else w, rfl, ?_⟩
        intro x hx
        by_cases hlt : w.length < c.length
        · rw [if_pos hlt] at hx
          exact path_mem_lookup hinv hroot
            (by rw [hpaths]; exact .head _) x hx
        · rw [if_neg hlt] at hx
          exact hw x hx
      | cons c2 rest2 =>
        exfalso
        rw [hpaths] at hle
        simp at hle

theorem mapToBlocks_isSome [DecidableEq β] {g : BlockGraph β ε} :
    ∀ {w : List β}, (∀ x ∈ w, (alookup g.block_ids_to_blocks x).isSome) →
      (mapToBlocks g w).isSome := by
  intro w
  induction w with
  | nil =>
    intro _
    rfl
  | cons x t ih =>
    intro h
    have hx := h x (.head _)
    obtain ⟨b, hb⟩ := Option.isSome_iff_exists.mp hx
    have ht := ih fun y hy => h y (.tail _ hy)
    obtain ⟨r, hr⟩ := Option.isSome_iff_exists.mp ht
    simp only [mapToBlocks, hb, hr, Option.map_some']
    rfl

theorem calc_winning_chain_isSome [LinearOrder β] {g : BlockGraph β ε}
    (hinv : GraphInv g) : (calculate_winning_chain g).isSome := by
  rw [calculate_winning_chain]
  have hstep : ∀ (acc : Option (List β)) (root : β), root ∈ root_blocks g →
      (∃ w, acc = some w ∧
        ∀ x ∈ w, (alookup g.block_ids_to_blocks x).isSome) →
      ∃ w, ((leaf_blocks g).foldl (wcStep g root) acc) = some w ∧
        ∀ x ∈ w, (alookup g.block_ids_to_blocks x).isSome := by
    intro acc root hrootmem hacc
    exact @foldl_preserve (Option (List β)) β
      (fun acc2 => ∃ w, acc2 = some w ∧
        ∀ x ∈ w, (alookup g.block_ids_to_blocks x).isSome)
      (wcStep g root) (leaf_blocks g) acc hacc
      (fun acc2 leaf hleaf hacc2 =>
        wcStep_good hinv (root_blocks_lookup hinv hrootmem) leaf hacc2)
  have hfold := @foldl_preserve (Option (List β)) β
    (fun acc => ∃ w, acc = some w ∧
      ∀ x ∈ w, (alookup g.block_ids_to_blocks x).isSome)
    (fun acc root => (leaf_blocks g).foldl (wcStep g root) acc)
    (root_blocks g) (some []) ⟨[], rfl, by simp⟩ hstep
  obtain ⟨w, hwe, hwl⟩ := hfold
  rw [hwe, Option.some_bind]
  exact mapToBlocks_isSome hwl

theorem inv_insert_edge [LinearOrder β] [DecidableEq ε] {g : BlockGraph β ε}
    (hinv : GraphInv g) {b : Block β ε} {parent : β}
    (hvac : alookup g.block_ids_to_blocks b.id = none)
    (hpar : b.parent = some parent) (wc : List (Block β ε)) :
    GraphInv (⟨g.block_ids_to_blocks ++ [(b.id, b)],
      g.block_id_graph.add_edge parent b.id, wc⟩ : BlockGraph β ε) := by
  refine ⟨?_, ?_, insertNew_nodup hinv.edges_nodup _⟩
  · intro p hp
    rcases List.mem_append.mp hp with hp | hp
    · exact hinv.id_eq p hp
    · simp at hp
      subst hp
      rfl
  · intro e he
    rcases mem_insertNew he with hmem | heq
    · obtain ⟨blk, hblk, hpblk⟩ := hinv.edge_src e hmem
      exact ⟨blk, alookup_append_of_some _ hblk, hpblk⟩
    · subst heq
      refine ⟨b, ?_, by rw [hpar]⟩
      rw [alookup_append_of_none _ hvac]
      simp [alookup]

theorem inv_insert_node [LinearOrder β] [DecidableEq ε] {g : BlockGraph β ε}
    (hinv : GraphInv g) {b : Block β ε} (wc : List (Block β ε)) :
    GraphInv (⟨g.block_ids_to_blocks ++ [(b.id, b)],
      g.block_id_graph.add_node b.id, wc⟩ : BlockGraph β ε) := by
  refine ⟨?_, ?_, hinv.edges_nodup⟩
  · intro p hp
    rcases List.mem_append.mp hp with hp | hp
    · exact hinv.id_eq p hp
    · simp at hp
      subst hp
      rfl
  · intro e he
    obtain ⟨blk, hblk, hpblk⟩ := hinv.edge_src e he
    exact ⟨blk, alookup_append_of_some _ hblk, hpblk⟩

theorem reach_inv [LinearOrder β] [DecidableEq ε] {g : BlockGraph β ε}
    (h : Reach g) : GraphInv g := by
  induction h with
  | empty =>
    refine ⟨?_, ?_, ?_⟩ <;> simp [BlockGraph.empty]
  | @step g g' b hr hadd ih =>
    cases hlook : alookup g.block_ids_to_blocks b.id with
    | some already =>
      simp only [add_block, hlook] at hadd
      split_ifs at hadd with heq
      · injection hadd with hadd
        injection hadd with hg hsnd
        rw [← hg]
        exact ih
      · injection hadd with hadd
        injection hadd with hg hsnd
        injection hsnd
    | none =>
      simp only [add_block, hlook] at hadd
      cases hpar : b.parent with
      | some parent =>
        cases htail : g.winning_chain.getLast? with
        | some tail =>
          simp only [hpar, htail] at hadd
          by_cases hfast : parent = tail.id
          · rw [if_pos hfast] at hadd
            injection hadd with hadd
            injection hadd with hg hsnd
            rw [← hg]
            exact inv_insert_edge ih hlook hpar _
          · rw [if_neg hfast] at hadd
            rw [Option.map_eq_some'] at hadd
            obtain ⟨w, hcalc, hf⟩ := hadd
            injection hf with hg hsnd
            rw [← hg]
            exact inv_insert_edge ih hlook hpar _
        | none =>
          simp only [hpar, htail] at hadd
          rw [Option.map_eq_some'] at hadd
          obtain ⟨w, hcalc, hf⟩ := hadd
          injection hf with hg hsnd
          rw [← hg]
          exact inv_insert_edge ih hlook hpar _
      | none =>
        simp only [hpar] at hadd
        rw [Option.map_eq_some'] at hadd
        obtain ⟨w, hcalc, hf⟩ := hadd
        injection hf with hg hsnd
        rw [← hg]
        exact inv_insert_node ih _

/-- C10 (theorem): on every block graph reachable from the empty graph
through successful `add_block` calls, `calculate_winning_chain` reaches no
panicking branch: in-degrees are at most one, so `all_simple_paths` yields
at most one path per (root, leaf) pair and the `unreachable` branch is
dead, and every block id on the selected path is a key of
`block_ids_to_blocks`, so the out-of-sync `expect` never fires. -/
theorem calculate_winning_chain_total_on_reachable [LinearOrder β]
    [DecidableEq ε] {g : BlockGraph β ε} (h : Reach g) :
    (calculate_winning_chain g).isSome :=
  calc_winning_chain_isSome (reach_inv h)

/-- C10 (witness): a concrete reachable graph on which
`calculate_winning_chain` is defined. -/
theorem calculate_winning_chain_total_on_reachable_witness :
    (calculate_winning_chain (⟨[(0, ⟨none, 0, []⟩)], ⟨[0], []⟩,
      [⟨none, 0, []⟩]⟩ : BlockGraph Nat Nat)).isSome :=
  calculate_winning_chain_total_on_reachable
    (Reach.step Reach.empty (by decide :
      add_block (BlockGraph.empty Nat Nat) ⟨none, 0, []⟩ =
        some (⟨[(0, ⟨none, 0, []⟩)], ⟨[0], []⟩, [⟨none, 0, []⟩]⟩, .ok ())))

end PowJulia
